import Mathlib

/-!
# CO₂ sensor chip (`src/iot/co2sensor.chip.c`)

A shallow embedding of the Wokwi custom chip: `chip_init` declares an analog
pin, a slider attribute and a recurring timer; `chip_timer_event` reads the
slider, scales it by `(value / 800.0f) * 3.3f` in IEEE-754 binary32 arithmetic
and writes the result to the pin.

The C type `float` is embedded as `F32`: a sign and the 31 low bits of the
binary32 encoding.  Division, multiplication and literal conversion round to
nearest, ties to even, as IEEE-754 prescribes for a target that evaluates
`float` expressions in `float` (custom chips are built for wasm32, whose
`f32.div` and `f32.mul` do).  They are computed with natural-number arithmetic
only, so every definition below evaluates in the kernel.

The host side of the plugin ABI (`wokwi-api.h` and the simulator behind it) is
not part of the sources; it is modelled as an explicit `Host` state with a
trace of the calls made across the ABI.
-/

namespace Co2Sensor

/-! ## binary32 arithmetic -/

/-- The C type `float`: NaN, a signed infinity, or a signed finite number given
by the low 31 bits of its encoding (biased exponent in bits 23..30, fraction in
bits 0..22); finite encodings are those below `0x7F800000`. -/
inductive F32 where
  | nan
  | inf (neg : Bool)
  | fin (neg : Bool) (bits : Fin 0x7F800000)
deriving DecidableEq

/-- Magnitude of the finite number with low bits `b`, counted in units of
`2^-149` (the smallest subnormal): the fraction `M` for a zero exponent field,
and `(2^23 + M) * 2^(E-1)` for exponent field `E ≥ 1`. -/
def units (b : ℕ) : ℕ :=
  if b / 2 ^ 23 = 0 then b % 2 ^ 23 else (2 ^ 23 + b % 2 ^ 23) * 2 ^ (b / 2 ^ 23 - 1)

/-- Nearest natural number to `n / d`, ties to even. -/
def rne (n d : ℕ) : ℕ :=
  if 2 * (n % d) < d then n / d
  else if d < 2 * (n % d) then n / d + 1
  else if n / d % 2 = 0 then n / d else n / d + 1

/-- Binade search: the largest `s ≤ k` with `2^(s+23) ≤ n / d`, or `0`. -/
def shift (n d : ℕ) : ℕ → ℕ
  | 0 => 0
  | k + 1 => if 2 ^ 24 * (2 ^ k * d) ≤ n then k + 1 else shift n d k

/-- Round the magnitude `n / d` (in units of `2^-149`) to binary32: the result
is the 31-bit encoding; `0x7F800000` or more means overflow to infinity.  The
quantum is `2^s` units, the significand `m ≤ 2^24` is rounded to nearest even,
and a carry `m = 2^24` lands on the next exponent by itself. -/
def roundUnits (n d : ℕ) : ℕ :=
  shift n d 254 * 2 ^ 23 + rne n (d * 2 ^ shift n d 254)

/-- Package a sign and a rounded encoding, overflowing to infinity. -/
def F32.pack (neg : Bool) (b : ℕ) : F32 :=
  if h : b < 0x7F800000 then .fin neg ⟨b, h⟩ else .inf neg

/-- The value of a nonnegative decimal literal `n / d` written with the `f`
suffix, e.g. `800.0f = ofFrac 800 1` and `3.3f = ofFrac 33 10`. -/
def F32.ofFrac (n d : ℕ) : F32 :=
  F32.pack false (roundUnits (n * 2 ^ 149) d)

/-- The C operator `/` on `float`. -/
def F32.div : F32 → F32 → F32
  | .nan, _ => .nan
  | _, .nan => .nan
  | .inf _, .inf _ => .nan
  | .inf s, .fin t _ => .inf (xor s t)
  | .fin s _, .inf t => .fin (xor s t) ⟨0, by decide⟩
  | .fin s a, .fin t b =>
    if b.val = 0 then (if a.val = 0 then .nan else .inf (xor s t))
    else F32.pack (xor s t) (roundUnits (units a.val * 2 ^ 149) (units b.val))

/-- The C operator `*` on `float`. -/
def F32.mul : F32 → F32 → F32
  | .nan, _ => .nan
  | _, .nan => .nan
  | .inf s, .inf t => .inf (xor s t)
  | .inf s, .fin t b => if b.val = 0 then .nan else .inf (xor s t)
  | .fin s a, .inf t => if a.val = 0 then .nan else .inf (xor s t)
  | .fin s a, .fin t b => F32.pack (xor s t) (roundUnits (units a.val * units b.val) (2 ^ 149))

/-- Scaled signed value of a finite number, in units of `2^-149`. -/
def F32.sunits (neg : Bool) (b : ℕ) : ℤ :=
  if neg then -(units b : ℤ) else (units b : ℤ)

/-- The C operator `<=` on `float` (false whenever an operand is NaN). -/
def F32.le : F32 → F32 → Bool
  | .nan, _ => false
  | _, .nan => false
  | .inf s, .inf t => s || !t
  | .inf s, .fin _ _ => s
  | .fin _ _, .inf t => !t
  | .fin s a, .fin t b => decide (F32.sunits s a.val ≤ F32.sunits t b.val)

/-- The C operator `<` on `float` (false whenever an operand is NaN). -/
def F32.lt : F32 → F32 → Bool
  | .nan, _ => false
  | _, .nan => false
  | .inf s, .inf t => s && !t
  | .inf s, .fin _ _ => s
  | .fin _ _, .inf t => !t
  | .fin s a, .fin t b => decide (F32.sunits s a.val < F32.sunits t b.val)

/-- The rational number a finite `float` stands for. -/
def F32.toRat? : F32 → Option ℚ
  | .fin s b => some ((F32.sunits s b.val : ℚ) / 2 ^ 149)
  | _ => none

/-! ## The host plugin ABI -/

/-- Pin modes of the host header; the chip names only `ANALOG`. -/
inductive pin_mode where
  | ANALOG
  | other (code : ℕ)
deriving DecidableEq

/-- Functions of this chip whose address is handed to the host. -/
inductive Callback where
  | chip_timer_event
deriving DecidableEq

/-- The chip state block (source lines 10-13); handles are plain numbers. -/
structure chip_state_t where
  pin_out : ℕ
  co2_attr : ℕ
deriving DecidableEq

/-- Argument of `timer_init` (source lines 28-31); `user_data` is a pointer
into the host heap. -/
structure timer_config_t where
  callback : Callback
  user_data : ℕ
deriving DecidableEq

/-- A declared pin: its name, mode and the voltage last written with
`pin_dac_write` (`none` before the first write). -/
structure Pin where
  name : String
  mode : pin_mode
  level : Option F32
deriving DecidableEq

/-- A declared float attribute: its name and current value. -/
structure Attr where
  name : String
  value : F32
deriving DecidableEq

/-- A registered timer; `schedule` is `some (period, rep)` once `timer_start`
was called, with the period as the bare argument of the host call; its unit is
fixed by the host header (see `Timer.period_us`). -/
structure Timer where
  config : timer_config_t
  schedule : Option (ℕ × Bool)
deriving DecidableEq

/-- One call across the plugin ABI, with the value the host returned. -/
inductive Call where
  | malloc (ret : ℕ)
  | pin_init (name : String) (mode : pin_mode) (ret : ℕ)
  | attr_init_float (name : String) (dflt : F32) (ret : ℕ)
  | timer_init (config : timer_config_t) (ret : ℕ)
  | timer_start (timer : ℕ) (period : ℕ) (rep : Bool)
  | attr_read_float (attr : ℕ) (ret : F32)
  | pin_dac_write (pin : ℕ) (voltage : F32)
deriving DecidableEq

/-- State of the host runtime for one chip instance.  A handle is the index of
its object in the list; `trace` records the ABI calls in order. -/
structure Host where
  heap : List chip_state_t
  pins : List Pin
  attrs : List Attr
  timers : List Timer
  trace : List Call
deriving DecidableEq

/-- The host at simulation start, before `chip_init`. -/
def Host.empty : Host := ⟨[], [], [], [], []⟩

/-- Modelled from the spec: `malloc` of one state block; the host owns the
block and allocation is assumed to succeed. -/
def malloc (h : Host) : ℕ × Host :=
  (h.heap.length,
    { h with heap := h.heap ++ [⟨0, 0⟩], trace := h.trace ++ [.malloc h.heap.length] })

/-- Modelled from the spec: pin-declaration call binding a named pin to a
mode; returns the new pin handle. -/
def pin_init (name : String) (mode : pin_mode) (h : Host) : ℕ × Host :=
  (h.pins.length,
    { h with pins := h.pins ++ [⟨name, mode, none⟩],
             trace := h.trace ++ [.pin_init name mode h.pins.length] })

/-- Modelled from the spec: attribute-declaration call creating a named float
control with a default value; returns the new attribute handle. -/
def attr_init_float (name : String) (dflt : F32) (h : Host) : ℕ × Host :=
  (h.attrs.length,
    { h with attrs := h.attrs ++ [⟨name, dflt⟩],
             trace := h.trace ++ [.attr_init_float name dflt h.attrs.length] })

/-- Modelled from the spec: timer registration; returns the new timer handle. -/
def timer_init (config : timer_config_t) (h : Host) : ℕ × Host :=
  (h.timers.length,
    { h with timers := h.timers ++ [⟨config, none⟩],
             trace := h.trace ++ [.timer_init config h.timers.length] })

/-- Modelled from the spec: start a registered timer with a period and a flag
for recurring execution. -/
def timer_start (timer period : ℕ) (rep : Bool) (h : Host) : Host :=
  { h with timers := h.timers.modify (fun t => { t with schedule := some (period, rep) }) timer,
           trace := h.trace ++ [.timer_start timer period rep] }

/-- Modelled from the spec: per-tick attribute read returning the current
value; fails on a handle that was never declared. -/
def attr_read_float (attr : ℕ) (h : Host) : Option (F32 × Host) :=
  match h.attrs[attr]? with
  | none => none
  | some a => some (a.value, { h with trace := h.trace ++ [.attr_read_float attr a.value] })

/-- Modelled from the spec: per-tick pin write setting the analog output
voltage; fails on a handle that was never declared. -/
def pin_dac_write (pin : ℕ) (voltage : F32) (h : Host) : Option Host :=
  match h.pins[pin]? with
  | none => none
  | some _ =>
    some { h with pins := h.pins.modify (fun p => { p with level := some voltage }) pin,
                  trace := h.trace ++ [.pin_dac_write pin voltage] }

/-- Store to `chip->pin_out`. -/
def store_pin_out (chip pin : ℕ) (h : Host) : Host :=
  { h with heap := h.heap.modify (fun c => { c with pin_out := pin }) chip }

/-- Store to `chip->co2_attr`. -/
def store_co2_attr (chip attr : ℕ) (h : Host) : Host :=
  { h with heap := h.heap.modify (fun c => { c with co2_attr := attr }) chip }

/-! ## The chip -/

/-- Source line 43: `(slider_value / 800.0f) * 3.3f`. -/
def voltage (slider_value : F32) : F32 :=
  F32.mul (F32.div slider_value (F32.ofFrac 800 1)) (F32.ofFrac 33 10)

/-- Source lines 17-34. -/
def chip_init (h : Host) : Host :=
  let (chip, h) := malloc h
  let (pin, h) := pin_init "A0" .ANALOG h
  let h := store_pin_out chip pin h
  let (attr, h) := attr_init_float "CarbonDioxide" (F32.ofFrac 0 1) h
  let h := store_co2_attr chip attr h
  let timer_config : timer_config_t := ⟨.chip_timer_event, chip⟩
  let (timer_id, h) := timer_init timer_config h
  timer_start timer_id 100 true h

/-- Source lines 36-47; `none` when the pointer or a handle dangles. -/
def chip_timer_event (user_data : ℕ) (h : Host) : Option Host :=
  match h.heap[user_data]? with
  | none => none
  | some chip =>
    match attr_read_float chip.co2_attr h with
    | none => none
    | some (slider_value, h) => pin_dac_write chip.pin_out (voltage slider_value) h

/-! ## The host step model -/

/-- What the host does between two returns of chip code: the user sets an
attribute, or a started timer fires. -/
inductive Event where
  | set_attr (attr : ℕ) (v : F32)
  | tick (timer : ℕ)
deriving DecidableEq

/-- The host calls a registered callback with its user data. -/
def Callback.call : Callback → ℕ → Host → Option Host
  | .chip_timer_event => Co2Sensor.chip_timer_event

/-- Modelled from the spec: one host step.  Setting an attribute only stores
the value; a tick of a started timer runs its callback, and a one-shot timer is
then unscheduled. -/
def Host.step (h : Host) : Event → Option Host
  | .set_attr attr v =>
    match h.attrs[attr]? with
    | none => none
    | some _ => some { h with attrs := h.attrs.modify (fun a => { a with value := v }) attr }
  | .tick timer =>
    match h.timers[timer]? with
    | none => none
    | some t =>
      match t.schedule with
      | none => none
      | some (_, rep) =>
        match t.config.callback.call t.config.user_data h with
        | none => none
        | some h =>
          some (if rep then h
            else { h with timers := h.timers.modify (fun t => { t with schedule := none }) timer })

/-- Run a sequence of host steps. -/
def Host.run (h : Host) : List Event → Option Host
  | [] => some h
  | e :: es =>
    match h.step e with
    | none => none
    | some h => h.run es

/-- The host state right after `chip_init` at simulation start. -/
def boot : Host := chip_init Host.empty

/-- The analog pin writes of a trace, in order. -/
def pin_writes : List Call → List (ℕ × F32)
  | [] => []
  | .pin_dac_write pin v :: cs => (pin, v) :: pin_writes cs
  | _ :: cs => pin_writes cs

/-- The voltage currently driven on a pin. -/
def Host.pin_level (h : Host) (pin : ℕ) : Option F32 :=
  match h.pins[pin]? with
  | none => none
  | some p => p.level

/-- Follows the spec's words: `voltage = (value / 800.0) * 3.3`, over the
rationals. -/
def spec_voltage (value : ℚ) : ℚ := (value / 800) * (33 / 10)


/-- The chip transform on encodings: `a` is divided by `800.0f` (encoding
`0x44480000`) and the rounded quotient multiplied by `3.3f` (encoding
`0x40533333`). -/
def scale (a : ℕ) : ℕ :=
  roundUnits (units (roundUnits (units a * 2 ^ 149) (units 0x44480000)) * units 0x40533333)
    (2 ^ 149)

/-- The wiring `chip_init` leaves behind at simulation start: one state block
holding handles 0 and 0, one started recurring timer on `chip_timer_event`, one
attribute "CarbonDioxide" and one analog pin "A0". -/
def Host.wired (h : Host) : Prop :=
  h.heap = [⟨0, 0⟩] ∧
  h.timers = [⟨⟨.chip_timer_event, 0⟩, some (100, true)⟩] ∧
  h.attrs.map Attr.name = ["CarbonDioxide"] ∧
  h.pins.map (fun p => (p.name, p.mode)) = [("A0", pin_mode.ANALOG)]

instance (h : Host) : Decidable h.wired := by
  unfold Host.wired
  infer_instance

/-- Microseconds in `n` milliseconds. -/
def ms_to_us (n : ℕ) : ℕ := n * 1000

/-- Simulated time between two firings of a started timer, in microseconds.
The unit of the `timer_start` argument is fixed by the host header, which is not
among the sources, so it is the parameter `unit_us`, the number of microseconds
one unit lasts.  The published `wokwi-api.h` declares the argument as
`uint32_t micros`, that is `unit_us = 1`; the comment on source line 27 assumes
milliseconds, that is `unit_us = 1000`. -/
def Timer.period_us (unit_us : ℕ) (t : Timer) : Option ℕ :=
  match t.schedule with
  | none => none
  | some (period, _) => some (period * unit_us)

/-! ## Known binary32 results -/

set_option maxRecDepth 100000 in
theorem ofFrac_tenth : F32.ofFrac 1 10 = .fin false ⟨0x3DCCCCCD, by decide⟩ := by
  decide

set_option maxRecDepth 100000 in
theorem div_one_three :
    F32.div (F32.ofFrac 1 1) (F32.ofFrac 3 1) = .fin false ⟨0x3EAAAAAB, by decide⟩ := by
  decide

set_option maxRecDepth 100000 in
theorem mul_overflow :
    F32.mul (.fin false ⟨0x7F7FFFFF, by decide⟩) (F32.ofFrac 2 1) = .inf false := by
  decide

set_option maxRecDepth 100000 in
theorem div_by_zero : F32.div (F32.ofFrac 1 1) (.fin true ⟨0, by decide⟩) = .inf true := by
  decide

set_option maxRecDepth 100000 in
theorem mul_tie_down :
    F32.mul (.fin false ⟨1, by decide⟩) (F32.ofFrac 1 2) = .fin false ⟨0, by decide⟩ := by
  decide

set_option maxRecDepth 100000 in
theorem mul_tie_up :
    F32.mul (.fin false ⟨3, by decide⟩) (F32.ofFrac 1 2) = .fin false ⟨2, by decide⟩ := by
  decide

set_option maxRecDepth 100000 in
theorem mul_into_subnormal :
    F32.mul (.fin false ⟨0x00FFFFFF, by decide⟩) (F32.ofFrac 1 2)
      = .fin false ⟨0x00800000, by decide⟩ := by
  decide

/-! ## Rounding lemmas -/

theorem rne_ge_div (n d : ℕ) : n / d ≤ rne n d := by
  unfold rne
  split_ifs <;> omega

theorem rne_le_div_succ (n d : ℕ) : rne n d ≤ n / d + 1 := by
  unfold rne
  split_ifs <;> omega

theorem div_le_div_of_cross {n1 d1 n2 d2 : ℕ} (h1 : 0 < d1) (h2 : 0 < d2)
    (h : n1 * d2 ≤ n2 * d1) : n1 / d1 ≤ n2 / d2 := by
  rw [Nat.le_div_iff_mul_le h2]
  have e1 : n1 / d1 * d1 ≤ n1 := Nat.div_mul_le_self n1 d1
  have : n1 / d1 * d2 * d1 ≤ n2 * d1 := by
    calc n1 / d1 * d2 * d1 = n1 / d1 * d1 * d2 := by ring
      _ ≤ n1 * d2 := Nat.mul_le_mul_right _ e1
      _ ≤ n2 * d1 := h
  exact Nat.le_of_mul_le_mul_right this h1

theorem rne_mono {n1 d1 n2 d2 : ℕ} (h1 : 0 < d1) (h2 : 0 < d2)
    (h : n1 * d2 ≤ n2 * d1) : rne n1 d1 ≤ rne n2 d2 := by
  have hf := div_le_div_of_cross h1 h2 h
  rcases Nat.lt_or_ge (n1 / d1) (n2 / d2) with hlt | hge
  · calc rne n1 d1 ≤ n1 / d1 + 1 := rne_le_div_succ _ _
      _ ≤ n2 / d2 := hlt
      _ ≤ rne n2 d2 := rne_ge_div _ _
  · have hfe : n1 / d1 = n2 / d2 := le_antisymm hf hge
    have e1 : d1 * (n1 / d1) + n1 % d1 = n1 := Nat.div_add_mod n1 d1
    have e2 : d2 * (n2 / d2) + n2 % d2 = n2 := Nat.div_add_mod n2 d2
    have hr : n1 % d1 * d2 ≤ n2 % d2 * d1 := by
      have : (d1 * (n1 / d1) + n1 % d1) * d2 ≤ (d2 * (n2 / d2) + n2 % d2) * d1 := by
        rw [e1, e2]; exact h
      rw [hfe] at this
      nlinarith
    unfold rne
    rw [hfe]
    split_ifs <;> first | omega | (exfalso; nlinarith)

theorem rne_err (n d : ℕ) (hd : 0 < d) :
    |(rne n d : ℚ) - (n : ℚ) / d| ≤ 1 / 2 := by
  have e : d * (n / d) + n % d = n := Nat.div_add_mod n d
  have hr : n % d < d := Nat.mod_lt n hd
  have hdq : (0 : ℚ) < d := by exact_mod_cast hd
  have eq : (n : ℚ) / d = (n / d : ℕ) + (n % d : ℕ) / (d : ℚ) := by
    field_simp
    have : ((d * (n / d) + n % d : ℕ) : ℚ) = n := by rw [e]
    push_cast at this
    linarith
  have hrq : ((n % d : ℕ) : ℚ) < d := by exact_mod_cast hr
  have hr0 : (0 : ℚ) ≤ ((n % d : ℕ) : ℚ) := by positivity
  rw [eq, abs_le]
  unfold rne
  split_ifs with h1 h2 h3
  · have : (2 : ℚ) * ((n % d : ℕ) : ℚ) < d := by exact_mod_cast h1
    constructor
    · have : ((n % d : ℕ) : ℚ) / d ≤ 1 / 2 := by rw [div_le_iff₀ hdq]; linarith
      linarith
    · have : 0 ≤ ((n % d : ℕ) : ℚ) / d := by positivity
      linarith
  · have : (d : ℚ) < 2 * ((n % d : ℕ) : ℚ) := by exact_mod_cast h2
    have h3 : 1 / 2 ≤ ((n % d : ℕ) : ℚ) / d := by rw [le_div_iff₀ hdq]; linarith
    have h4 : ((n % d : ℕ) : ℚ) / d ≤ 1 := by rw [div_le_iff₀ hdq]; linarith
    push_cast
    constructor <;> linarith
  · have : (2 : ℚ) * ((n % d : ℕ) : ℚ) = d := by
      have : 2 * (n % d) = d := by omega
      exact_mod_cast this
    have h4 : ((n % d : ℕ) : ℚ) / d = 1 / 2 := by rw [div_eq_iff hdq.ne']; linarith
    constructor <;> linarith
  · have : (2 : ℚ) * ((n % d : ℕ) : ℚ) = d := by
      have : 2 * (n % d) = d := by omega
      exact_mod_cast this
    have h4 : ((n % d : ℕ) : ℚ) / d = 1 / 2 := by rw [div_eq_iff hdq.ne']; linarith
    push_cast
    constructor <;> linarith

theorem shift_le (n d k : ℕ) : shift n d k ≤ k := by
  induction k with
  | zero => simp [shift]
  | succ k ih => unfold shift; split_ifs <;> omega

theorem shift_lower (n d k : ℕ) (h : 0 < shift n d k) :
    2 ^ 23 * (2 ^ shift n d k * d) ≤ n := by
  induction k with
  | zero => simp [shift] at h
  | succ k ih =>
    unfold shift at h ⊢
    split_ifs at h ⊢ with hc
    · have : 2 ^ 23 * (2 ^ (k + 1) * d) = 2 ^ 24 * (2 ^ k * d) := by ring
      omega
    · exact ih h

theorem shift_upper (n d k : ℕ) (h : shift n d k < k) :
    n < 2 ^ 24 * (2 ^ shift n d k * d) := by
  induction k with
  | zero => simp at h
  | succ k ih =>
    unfold shift at h ⊢
    split_ifs at h ⊢ with hc
    · omega
    · rcases Nat.lt_or_ge (shift n d k) k with hlt | hge
      · exact ih hlt
      · have : shift n d k = k := le_antisymm (shift_le n d k) hge
        rw [this]; omega

theorem shift_mono {n1 d1 n2 d2 : ℕ} (h1 : 0 < d1) (k : ℕ)
    (h : n1 * d2 ≤ n2 * d1) : shift n1 d1 k ≤ shift n2 d2 k := by
  induction k with
  | zero => simp [shift]
  | succ k ih =>
    unfold shift
    split_ifs with hc1 hc2 hc2
    · exact le_rfl
    · exfalso
      apply hc2
      have : 2 ^ 24 * (2 ^ k * d2) * d1 ≤ n2 * d1 := by
        calc 2 ^ 24 * (2 ^ k * d2) * d1 = 2 ^ 24 * (2 ^ k * d1) * d2 := by ring
          _ ≤ n1 * d2 := Nat.mul_le_mul_right _ hc1
          _ ≤ n2 * d1 := h
      exact Nat.le_of_mul_le_mul_right this h1
    · have := shift_le n1 d1 k; omega
    · exact ih

theorem units_encode (s m : ℕ) (hm : m ≤ 2 ^ 24) (hs : 0 < s → 2 ^ 23 ≤ m) :
    units (s * 2 ^ 23 + m) = m * 2 ^ s := by
  unfold units
  norm_num at hm hs ⊢
  rcases Nat.lt_or_ge m 8388608 with h1 | h1
  · have hs0 : s = 0 := by
      by_contra hne
      have := hs (Nat.pos_of_ne_zero hne)
      omega
    subst hs0
    have e1 : (0 * 8388608 + m) / 8388608 = 0 := by omega
    have e2 : (0 * 8388608 + m) % 8388608 = m := by omega
    rw [e1, e2]; simp
  · rcases Nat.lt_or_ge m 16777216 with h2 | h2
    · have e1 : (s * 8388608 + m) / 8388608 = s + 1 := by omega
      have e2 : (s * 8388608 + m) % 8388608 = m - 8388608 := by omega
      rw [e1, e2]
      have : 8388608 + (m - 8388608) = m := by omega
      simp [this]
    · have hm2 : m = 16777216 := by omega
      subst hm2
      have e1 : (s * 8388608 + 16777216) / 8388608 = s + 2 := by omega
      have e2 : (s * 8388608 + 16777216) % 8388608 = 0 := by omega
      rw [e1, e2]
      simp [pow_succ]
      ring

theorem units_lt_units {a b : ℕ} (h : a < b) : units a < units b := by
  unfold units
  have ea : 2 ^ 23 * (a / 2 ^ 23) + a % 2 ^ 23 = a := Nat.div_add_mod a _
  have eb : 2 ^ 23 * (b / 2 ^ 23) + b % 2 ^ 23 = b := Nat.div_add_mod b _
  have ha : a % 2 ^ 23 < 2 ^ 23 := Nat.mod_lt _ (by norm_num)
  have hb : b % 2 ^ 23 < 2 ^ 23 := Nat.mod_lt _ (by norm_num)
  have hE : a / 2 ^ 23 ≤ b / 2 ^ 23 := Nat.div_le_div_right h.le
  generalize a / 2 ^ 23 = Ea at *
  generalize b / 2 ^ 23 = Eb at *
  generalize a % 2 ^ 23 = Ma at *
  generalize b % 2 ^ 23 = Mb at *
  rcases Nat.lt_or_ge Ea Eb with hlt | hge
  · have hEb : Eb ≠ 0 := by omega
    rw [if_neg hEb]
    have hpb : 2 ^ Ea ≤ 2 ^ (Eb - 1) := Nat.pow_le_pow_right (by norm_num) (by omega)
    have hpos : 0 < 2 ^ Ea := by positivity
    have hbig : 2 ^ 23 * 2 ^ Ea ≤ (2 ^ 23 + Mb) * 2 ^ (Eb - 1) :=
      Nat.mul_le_mul (by omega) hpb
    split_ifs with hEa
    · subst hEa
      have h1 : 2 ^ 23 * 2 ^ 0 = 2 ^ 23 := by norm_num
      rw [h1] at hbig
      exact lt_of_lt_of_le ha hbig
    · have e : 2 ^ Ea = 2 * 2 ^ (Ea - 1) := by
        rw [← pow_succ']; congr 1; omega
      have hp1 : 0 < 2 ^ (Ea - 1) := by positivity
      have : (2 ^ 23 + Ma) * 2 ^ (Ea - 1) < 2 ^ 23 * 2 ^ Ea := by
        rw [e]
        calc (2 ^ 23 + Ma) * 2 ^ (Ea - 1) < (2 ^ 23 * 2) * 2 ^ (Ea - 1) :=
              Nat.mul_lt_mul_of_pos_right (by omega) hp1
          _ = 2 ^ 23 * (2 * 2 ^ (Ea - 1)) := by ring
      omega
  · have hEe : Ea = Eb := le_antisymm hE hge
    subst hEe
    have hM : Ma < Mb := by
      have : 2 ^ 23 * Ea + Ma < 2 ^ 23 * Ea + Mb := by omega
      omega
    split_ifs with hEa
    · exact hM
    · exact Nat.mul_lt_mul_of_pos_right (by omega) (by positivity)

theorem units_le_units {a b : ℕ} (h : a ≤ b) : units a ≤ units b := by
  rcases Nat.eq_or_lt_of_le h with h | h
  · rw [h]
  · exact (units_lt_units h).le

theorem units_lt_iff {a b : ℕ} : units a < units b ↔ a < b := by
  constructor
  · intro h
    by_contra hn
    exact absurd (units_le_units (not_lt.mp hn)) (not_le.mpr h)
  · exact units_lt_units

theorem units_le_iff {a b : ℕ} : units a ≤ units b ↔ a ≤ b := by
  constructor
  · intro h
    by_contra hn
    exact absurd (units_lt_units (not_le.mp hn)) (not_lt.mpr h)
  · exact units_le_units

theorem units_eq_zero_iff {b : ℕ} : units b = 0 ↔ b = 0 := by
  have h0 : units 0 = 0 := by decide
  constructor
  · intro h
    by_contra hn
    have := units_lt_units (Nat.pos_of_ne_zero hn)
    omega
  · rintro rfl; exact h0

/-- significand bound below, for a positive shift -/
theorem rne_shift_ge (n d : ℕ) (hd : 0 < d) (h : 0 < shift n d 254) :
    2 ^ 23 ≤ rne n (d * 2 ^ shift n d 254) := by
  have hl := shift_lower n d 254 h
  have hpos : 0 < d * 2 ^ shift n d 254 := by positivity
  calc 2 ^ 23 ≤ n / (d * 2 ^ shift n d 254) := by
        rw [Nat.le_div_iff_mul_le hpos]
        calc 2 ^ 23 * (d * 2 ^ shift n d 254) = 2 ^ 23 * (2 ^ shift n d 254 * d) := by ring
          _ ≤ n := hl
    _ ≤ _ := rne_ge_div _ _

/-- significand bound above, below the last binade -/
theorem rne_shift_le (n d : ℕ) (hd : 0 < d) (h : shift n d 254 < 254) :
    rne n (d * 2 ^ shift n d 254) ≤ 2 ^ 24 := by
  have hu := shift_upper n d 254 h
  have hpos : 0 < d * 2 ^ shift n d 254 := by positivity
  have : n / (d * 2 ^ shift n d 254) < 2 ^ 24 := by
    rw [Nat.div_lt_iff_lt_mul hpos]
    calc n < 2 ^ 24 * (2 ^ shift n d 254 * d) := hu
      _ = 2 ^ 24 * (d * 2 ^ shift n d 254) := by ring
  have := rne_le_div_succ n (d * 2 ^ shift n d 254)
  omega

theorem shift_lt_of_finite (n d : ℕ) (hd : 0 < d) (h : roundUnits n d < 0x7F800000) :
    shift n d 254 < 254 := by
  by_contra hn
  have hs : shift n d 254 = 254 := le_antisymm (shift_le _ _ _) (not_lt.mp hn)
  have := rne_shift_ge n d hd (by omega)
  unfold roundUnits at h
  rw [hs] at h this
  norm_num at h this
  omega

theorem roundUnits_mono {n1 d1 n2 d2 : ℕ} (h1 : 0 < d1) (h2 : 0 < d2)
    (h : n1 * d2 ≤ n2 * d1) : roundUnits n1 d1 ≤ roundUnits n2 d2 := by
  have hs : shift n1 d1 254 ≤ shift n2 d2 254 := shift_mono h1 254 h
  unfold roundUnits
  rcases Nat.lt_or_ge (shift n1 d1 254) (shift n2 d2 254) with hlt | hge
  · have hle2 := shift_le n2 d2 254
    have hm1 := rne_shift_le n1 d1 h1 (by omega)
    have hm2 := rne_shift_ge n2 d2 h2 (by omega)
    have : (shift n1 d1 254 + 1) * 2 ^ 23 ≤ shift n2 d2 254 * 2 ^ 23 :=
      Nat.mul_le_mul_right _ hlt
    norm_num at hm1 hm2 this ⊢
    omega
  · have hse : shift n1 d1 254 = shift n2 d2 254 := le_antisymm hs hge
    rw [hse]
    apply Nat.add_le_add_left
    apply rne_mono (by positivity) (by positivity)
    calc n1 * (d2 * 2 ^ shift n2 d2 254) = n1 * d2 * 2 ^ shift n2 d2 254 := by ring
      _ ≤ n2 * d1 * 2 ^ shift n2 d2 254 := Nat.mul_le_mul_right _ h
      _ = n2 * (d1 * 2 ^ shift n2 d2 254) := by ring

theorem units_roundUnits (n d : ℕ) (hd : 0 < d) (h : shift n d 254 < 254) :
    units (roundUnits n d) = rne n (d * 2 ^ shift n d 254) * 2 ^ shift n d 254 :=
  units_encode _ _ (rne_shift_le n d hd h) (rne_shift_ge n d hd)

/-- rounding error of `roundUnits`, in units of `2^-149`: half a quantum, which is
at most `2^-24` of the exact value, or half a unit in the subnormal range -/
theorem roundUnits_err (n d : ℕ) (hd : 0 < d) (h : shift n d 254 < 254) :
    |(units (roundUnits n d) : ℚ) - (n : ℚ) / d| ≤ (n : ℚ) / d / 2 ^ 24 + 1 / 2 := by
  rw [units_roundUnits n d hd h]
  set s := shift n d 254 with hs
  have hpos : 0 < d * 2 ^ s := by positivity
  have he := rne_err n (d * 2 ^ s) hpos
  have hdq : (0 : ℚ) < d := by exact_mod_cast hd
  have hsq : (0 : ℚ) < 2 ^ s := by positivity
  have hnq : (0 : ℚ) ≤ (n : ℚ) / d := by positivity
  have e : ((rne n (d * 2 ^ s) * 2 ^ s : ℕ) : ℚ) - (n : ℚ) / d
      = 2 ^ s * ((rne n (d * 2 ^ s) : ℚ) - (n : ℚ) / ((d * 2 ^ s : ℕ) : ℚ)) := by
    push_cast
    field_simp
    ring
  rw [e, abs_mul, abs_of_pos hsq]
  have hb : (2 : ℚ) ^ s ≤ (n : ℚ) / d / 2 ^ 23 + 1 := by
    rcases Nat.eq_zero_or_pos s with h0 | h0
    · rw [h0]
      have : 0 ≤ (n : ℚ) / d / 2 ^ 23 := by positivity
      simp only [pow_zero]; linarith
    · have hl := shift_lower n d 254 (hs ▸ h0)
      rw [← hs] at hl
      have hlq : ((2 ^ 23 * (2 ^ s * d) : ℕ) : ℚ) ≤ n := by exact_mod_cast hl
      push_cast at hlq
      have : (2 : ℚ) ^ s ≤ (n : ℚ) / d / 2 ^ 23 := by
        rw [le_div_iff₀ (by positivity), le_div_iff₀ hdq]
        linarith
      linarith
  have h2 : (2 : ℚ) ^ s * |(rne n (d * 2 ^ s) : ℚ) - (n : ℚ) / ((d * 2 ^ s : ℕ) : ℚ)|
      ≤ 2 ^ s * (1 / 2) := mul_le_mul_of_nonneg_left he hsq.le
  have h3 : (n : ℚ) / d / 2 ^ 24 = (n : ℚ) / d / 2 ^ 23 / 2 := by
    rw [div_div, div_div, div_div]; norm_num
  rw [h3]
  linarith

/-! ## The transform on finite inputs -/

theorem units_c800 : units 0x44480000 = 800 * 2 ^ 149 := by
  norm_num [units]

theorem units_c33 : units 0x40533333 = 13841203 * 2 ^ 127 := by
  norm_num [units]

set_option maxRecDepth 100000 in
theorem ofFrac_800 : F32.ofFrac 800 1 = .fin false ⟨0x44480000, by decide⟩ := by
  decide

set_option maxRecDepth 100000 in
theorem ofFrac_33_10 : F32.ofFrac 33 10 = .fin false ⟨0x40533333, by decide⟩ := by
  decide

set_option maxRecDepth 100000 in
theorem ofFrac_0 : F32.ofFrac 0 1 = .fin false ⟨0, by decide⟩ := by
  decide

theorem quot_mono {a b : ℕ} (h : a ≤ b) :
    roundUnits (units a * 2 ^ 149) (units 0x44480000)
      ≤ roundUnits (units b * 2 ^ 149) (units 0x44480000) := by
  have hd : 0 < units 0x44480000 := by rw [units_c800]; positivity
  apply roundUnits_mono hd hd
  exact Nat.mul_le_mul_right _ (Nat.mul_le_mul_right _ (units_le_units h))

theorem scale_mono {a b : ℕ} (h : a ≤ b) : scale a ≤ scale b := by
  unfold scale
  apply roundUnits_mono (by positivity) (by positivity)
  exact Nat.mul_le_mul_right _ (Nat.mul_le_mul_right _ (units_le_units (quot_mono h)))

set_option maxRecDepth 100000 in
theorem quot_max : roundUnits (units 0x7F7FFFFF * 2 ^ 149) (units 0x44480000) = 2057557770 := by
  decide

set_option maxRecDepth 100000 in
theorem scale_max : scale 0x7F7FFFFF = 2072455938 := by
  decide

theorem quot_lt {a : ℕ} (h : a < 0x7F800000) :
    roundUnits (units a * 2 ^ 149) (units 0x44480000) < 0x7F800000 := by
  have := quot_mono (show a ≤ 0x7F7FFFFF by omega)
  rw [quot_max] at this
  omega

theorem scale_lt {a : ℕ} (h : a < 0x7F800000) : scale a < 0x7F800000 := by
  have := scale_mono (show a ≤ 0x7F7FFFFF by omega)
  rw [scale_max] at this
  omega

theorem voltage_fin (s : Bool) (a : Fin 0x7F800000) :
    voltage (.fin s a) = .fin s ⟨scale a.val, scale_lt a.isLt⟩ := by
  unfold voltage
  rw [ofFrac_800, ofFrac_33_10]
  have h1 : F32.div (.fin s a) (.fin false ⟨0x44480000, by decide⟩)
      = .fin s ⟨roundUnits (units a.val * 2 ^ 149) (units 0x44480000), quot_lt a.isLt⟩ := by
    simp only [F32.div]
    rw [if_neg (by decide)]
    simp only [F32.pack, Bool.xor_false]
    rw [dif_pos (quot_lt a.isLt)]
  rw [h1]
  simp only [F32.mul, F32.pack, Bool.xor_false]
  have h2 := scale_lt a.isLt
  unfold scale at h2
  rw [dif_pos h2]
  rfl

theorem voltage_inf (s : Bool) : voltage (.inf s) = .inf s := by
  unfold voltage
  rw [ofFrac_800, ofFrac_33_10]
  cases s <;> rfl

theorem voltage_nan : voltage .nan = .nan := by
  unfold voltage
  rw [ofFrac_800, ofFrac_33_10]
  rfl

set_option maxRecDepth 100000 in
theorem scale_zero : scale 0 = 0 := by decide

/-- total error of the two roundings and of the constant `3.3f`, for a magnitude
of at most 800 -/
theorem scale_err {a : ℕ} (ha : a < 0x7F800000) (hu : units a ≤ 800 * 2 ^ 149) :
    |(units (scale a) : ℚ) / 2 ^ 149 - spec_voltage ((units a : ℚ) / 2 ^ 149)| ≤ 1 / 2000000 := by
  have hd : 0 < units 0x44480000 := by rw [units_c800]; positivity
  have hq := quot_lt ha
  have e1 := roundUnits_err (units a * 2 ^ 149) (units 0x44480000) hd
    (shift_lt_of_finite _ _ hd hq)
  have hs := scale_lt ha
  have e2 := roundUnits_err
    (units (roundUnits (units a * 2 ^ 149) (units 0x44480000)) * units 0x40533333) (2 ^ 149)
    (by positivity) (shift_lt_of_finite _ _ (by positivity) hs)
  change |(units (scale a) : ℚ) - _| ≤ _ at e2
  generalize (units (scale a) : ℚ) = r2 at e2 ⊢
  have hr1 : (0 : ℚ) ≤ (units (roundUnits (units a * 2 ^ 149) (units 0x44480000)) : ℚ) := by
    positivity
  push_cast at e1 e2
  generalize (units (roundUnits (units a * 2 ^ 149) (units 0x44480000)) : ℚ) = r1 at e1 e2 hr1
  rw [units_c800] at e1
  rw [units_c33] at e2
  have hu0 : (0 : ℚ) ≤ (units a : ℚ) := by positivity
  have hu1 : (units a : ℚ) ≤ 800 * 2 ^ 149 := by exact_mod_cast hu
  generalize (units a : ℚ) = u at e1 hu0 hu1 ⊢
  push_cast at e1 e2
  unfold spec_voltage
  rw [abs_le] at e1 e2 ⊢
  obtain ⟨e1a, e1b⟩ := e1
  obtain ⟨e2a, e2b⟩ := e2
  norm_num at e1a e1b e2a e2b hu1 ⊢
  constructor <;> linarith

/-- relative form of the total error, for every finite magnitude -/
theorem scale_err_rel {a : ℕ} (ha : a < 0x7F800000) :
    |(units (scale a) : ℚ) / 2 ^ 149 - spec_voltage ((units a : ℚ) / 2 ^ 149)|
      ≤ spec_voltage ((units a : ℚ) / 2 ^ 149) / 2 ^ 22 + 3 / 2 ^ 149 := by
  have hd : 0 < units 0x44480000 := by rw [units_c800]; positivity
  have hq := quot_lt ha
  have e1 := roundUnits_err (units a * 2 ^ 149) (units 0x44480000) hd
    (shift_lt_of_finite _ _ hd hq)
  have hs := scale_lt ha
  have e2 := roundUnits_err
    (units (roundUnits (units a * 2 ^ 149) (units 0x44480000)) * units 0x40533333) (2 ^ 149)
    (by positivity) (shift_lt_of_finite _ _ (by positivity) hs)
  change |(units (scale a) : ℚ) - _| ≤ _ at e2
  generalize (units (scale a) : ℚ) = r2 at e2 ⊢
  have hr1 : (0 : ℚ) ≤ (units (roundUnits (units a * 2 ^ 149) (units 0x44480000)) : ℚ) := by
    positivity
  push_cast at e1 e2
  generalize (units (roundUnits (units a * 2 ^ 149) (units 0x44480000)) : ℚ) = r1 at e1 e2 hr1
  rw [units_c800] at e1
  rw [units_c33] at e2
  have hu0 : (0 : ℚ) ≤ (units a : ℚ) := by positivity
  generalize (units a : ℚ) = u at e1 hu0 ⊢
  push_cast at e1 e2
  unfold spec_voltage
  rw [abs_le] at e1 e2 ⊢
  obtain ⟨e1a, e1b⟩ := e1
  obtain ⟨e2a, e2b⟩ := e2
  norm_num at e1a e1b e2a e2b ⊢
  constructor <;> linarith

set_option maxRecDepth 100000 in
theorem scale_400 : scale 400 = 0 := by decide

set_option maxRecDepth 100000 in
theorem scale_401 : scale 401 = 3 := by decide

set_option maxRecDepth 100000 in
theorem scale_c800 : scale 0x44480000 = 0x40533333 := by decide

set_option maxRecDepth 100000 in
theorem scale_c800_succ : scale 0x44480001 = 0x40533335 := by decide

theorem scale_eq_zero_iff {a : ℕ} : scale a = 0 ↔ a ≤ 400 := by
  constructor
  · intro h
    by_contra hn
    have := scale_mono (show 401 ≤ a by omega)
    rw [scale_401] at this
    omega
  · intro h
    have := scale_mono h
    rw [scale_400] at this
    omega

/-- the transform preserves the order of signed magnitudes -/
theorem sunits_scale_mono {s t : Bool} {a b : ℕ}
    (h : F32.sunits s a ≤ F32.sunits t b) :
    F32.sunits s (scale a) ≤ F32.sunits t (scale b) := by
  unfold F32.sunits at h ⊢
  cases s <;> cases t <;> simp only [if_true, if_false, Bool.false_eq_true] at h ⊢
  · have : units a ≤ units b := by exact_mod_cast h
    exact_mod_cast units_le_units (scale_mono (units_le_iff.mp this))
  · have h0 : units a = 0 := by omega
    have h1 : units b = 0 := by omega
    rw [units_eq_zero_iff] at h0 h1
    subst h0; subst h1
    rw [scale_zero]
    simp [units]
  · omega
  · have : units b ≤ units a := by omega
    have := units_le_units (scale_mono (units_le_iff.mp this))
    omega

/-! ## Host runs -/

theorem pin_writes_append (l1 l2 : List Call) :
    pin_writes (l1 ++ l2) = pin_writes l1 ++ pin_writes l2 := by
  induction l1 with
  | nil => rfl
  | cons c cs ih => cases c <;> simp [pin_writes, ih]

theorem modify_append_length {α : Type} (f : α → α) (l : List α) (x : α) :
    List.modify f l.length (l ++ [x]) = l ++ [f x] := by
  induction l with
  | nil => rfl
  | cons a l ih => simp [ih]

set_option maxRecDepth 100000 in
theorem wired_boot : boot.wired := by
  unfold Host.wired
  decide

theorem wired_shape {h : Host} (hw : h.wired) :
    ∃ v l, h.attrs = [⟨"CarbonDioxide", v⟩] ∧ h.pins = [⟨"A0", .ANALOG, l⟩] := by
  obtain ⟨_, _, ha, hp⟩ := hw
  obtain ⟨heap, pins, attrs, timers, trace⟩ := h
  simp only at ha hp
  match attrs, pins, ha, hp with
  | [⟨an, v⟩], [⟨pn, pm, l⟩], ha, hp =>
    simp at ha hp
    obtain ⟨rfl, rfl⟩ := hp
    subst ha
    exact ⟨v, l, rfl, rfl⟩

/-- the timer callback on a wired host: one read, one write, nothing else changes -/
theorem timer_event_wired {h : Host} {v : F32} {l : Option F32} (hw : h.wired)
    (ha : h.attrs = [⟨"CarbonDioxide", v⟩]) (hp : h.pins = [⟨"A0", .ANALOG, l⟩]) :
    chip_timer_event 0 h = some { h with
      pins := [⟨"A0", .ANALOG, some (voltage v)⟩],
      trace := h.trace ++ [.attr_read_float 0 v, .pin_dac_write 0 (voltage v)] } := by
  obtain ⟨hh, _, _, _⟩ := hw
  obtain ⟨heap, pins, attrs, timers, trace⟩ := h
  simp only at hh ha hp
  subst hh ha hp
  simp [chip_timer_event, attr_read_float, pin_dac_write]

theorem step_wired {h h1 : Host} {e : Event} (hw : h.wired) (hs : h.step e = some h1) :
    h1.wired := by
  obtain ⟨v, l, ha, hp⟩ := wired_shape hw
  have hw2 := hw
  obtain ⟨hh, ht, _, _⟩ := hw2
  cases e with
  | set_attr a w =>
    simp only [Host.step, ha] at hs
    cases a with
    | zero =>
      simp at hs
      subst hs
      exact ⟨hh, ht, by simp [ha], by simp [hp]⟩
    | succ n => simp at hs
  | tick t =>
    simp only [Host.step, ht] at hs
    cases t with
    | zero =>
      simp [Callback.call, timer_event_wired hw ha hp] at hs
      subst hs
      exact ⟨hh, ht, by simp [ha], by simp⟩
    | succ n => simp at hs

theorem run_wired {es : List Event} : ∀ {h h1 : Host}, h.wired → h.run es = some h1 → h1.wired := by
  induction es with
  | nil =>
    intro h h1 hw hr
    simp [Host.run] at hr
    subst hr; exact hw
  | cons e es ih =>
    intro h h1 hw hr
    simp only [Host.run] at hr
    cases hs : h.step e with
    | none => simp [hs] at hr
    | some h2 =>
      simp only [hs] at hr
      exact ih (step_wired hw hs) hr

theorem tick_wired {h : Host} {v : F32} {l : Option F32} (hw : h.wired)
    (ha : h.attrs = [⟨"CarbonDioxide", v⟩]) (hp : h.pins = [⟨"A0", .ANALOG, l⟩]) :
    h.step (.tick 0) = some { h with
      pins := [⟨"A0", .ANALOG, some (voltage v)⟩],
      trace := h.trace ++ [.attr_read_float 0 v, .pin_dac_write 0 (voltage v)] } := by
  have ht := hw.2.1
  simp [Host.step, ht, Callback.call, timer_event_wired hw ha hp]

/-- ticks with the slider left alone: each one writes the same voltage -/
theorem run_ticks {v : F32} (n : ℕ) : ∀ {h : Host} {l : Option F32}, h.wired →
    h.attrs = [⟨"CarbonDioxide", v⟩] → h.pins = [⟨"A0", .ANALOG, l⟩] →
    ∃ h1, h.run (List.replicate n (.tick 0)) = some h1 ∧
      pin_writes h1.trace = pin_writes h.trace ++ List.replicate n (0, voltage v) ∧
      h1.pin_level 0 = if n = 0 then l else some (voltage v) := by
  induction n with
  | zero =>
    intro h l _ _ hp
    exact ⟨h, rfl, by simp, by simp [Host.pin_level, hp]⟩
  | succ n ih =>
    intro h l hw ha hp
    have ht := tick_wired hw ha hp
    have hw1 := step_wired hw ht
    obtain ⟨h1, hr, hpw, hlv⟩ := ih (l := some (voltage v)) hw1 ha rfl
    refine ⟨h1, ?_, ?_, ?_⟩
    · simp only [List.replicate_succ, Host.run, ht]
      exact hr
    · rw [hpw]
      simp [pin_writes_append, pin_writes, List.replicate_succ]
    · rw [hlv]
      simp

/-! ## The scaling contract -/

/-- C1: for every attribute value `v` with `0 <= v <= 800`, the voltage computed
by `chip_timer_event` is a finite number within `5e-7` of `(v / 800) * 3.3`
evaluated over the rationals. -/
theorem voltage_within_tolerance (v : F32)
    (h0 : F32.le (F32.ofFrac 0 1) v = true) (h1 : F32.le v (F32.ofFrac 800 1) = true) :
    ∃ x r : ℚ, v.toRat? = some x ∧ (voltage v).toRat? = some r ∧
      |r - spec_voltage x| ≤ 1 / 2000000 := by
  rw [ofFrac_0] at h0
  rw [ofFrac_800] at h1
  cases v with
  | nan => simp [F32.le] at h0
  | inf s => cases s <;> simp [F32.le] at h0 h1
  | fin s a =>
    simp only [F32.le, decide_eq_true_eq] at h0 h1
    refine ⟨_, _, rfl, by rw [voltage_fin]; rfl, ?_⟩
    cases s with
    | false =>
      simp only [F32.sunits, if_false, Bool.false_eq_true] at h1 ⊢
      rw [units_c800] at h1
      have hu : units a.val ≤ 800 * 2 ^ 149 := by exact_mod_cast h1
      have := scale_err a.isLt hu
      push_cast
      exact this
    | true =>
      simp only [F32.sunits, if_true, if_false, Bool.false_eq_true] at h0 ⊢
      have u0 : units 0 = 0 := by decide
      have hz : units a.val = 0 := by
        rw [u0] at h0
        omega
      have ha : a.val = 0 := units_eq_zero_iff.mp hz
      rw [ha, scale_zero, u0]
      norm_num [spec_voltage]

set_option maxRecDepth 100000 in
/-- Witness for C1 at `v = 500.0f`. -/
theorem voltage_within_tolerance_witness :
    F32.le (F32.ofFrac 0 1) (F32.ofFrac 500 1) = true ∧
    F32.le (F32.ofFrac 500 1) (F32.ofFrac 800 1) = true ∧
    ∃ x r : ℚ, (F32.ofFrac 500 1).toRat? = some x ∧
      (voltage (F32.ofFrac 500 1)).toRat? = some r ∧ |r - spec_voltage x| ≤ 1 / 2000000 :=
  ⟨by decide, by decide, voltage_within_tolerance _ (by decide) (by decide)⟩

set_option maxRecDepth 100000 in
/-- C2: at full scale `v = 800.0f` the voltage is the `float` `3.3f`, whose exact
value is `13841203 / 2^22`. -/
theorem voltage_full_scale :
    voltage (F32.ofFrac 800 1) = F32.ofFrac 33 10 ∧
    (voltage (F32.ofFrac 800 1)).toRat? = some (13841203 / 4194304) := by
  have h : voltage (F32.ofFrac 800 1) = F32.ofFrac 33 10 := by decide
  refine ⟨h, ?_⟩
  rw [h, ofFrac_33_10]
  simp only [F32.toRat?, F32.sunits, if_false, Bool.false_eq_true, units_c33]
  norm_num

set_option maxRecDepth 100000 in
/-- C3: at mid scale `v = 400.0f` the voltage is the `float` `1.65f`, whose exact
value is `13841203 / 2^23`. -/
theorem voltage_mid_scale :
    voltage (F32.ofFrac 400 1) = F32.ofFrac 165 100 ∧
    (voltage (F32.ofFrac 400 1)).toRat? = some (13841203 / 8388608) := by
  have h : voltage (F32.ofFrac 400 1) = F32.ofFrac 165 100 := by decide
  have h2 : F32.ofFrac 165 100 = .fin false ⟨0x3FD33333, by decide⟩ := by decide
  have h3 : units 0x3FD33333 = 13841203 * 2 ^ 126 := by norm_num [units]
  refine ⟨h, ?_⟩
  rw [h, h2]
  simp only [F32.toRat?, F32.sunits, if_false, Bool.false_eq_true, h3]
  norm_num

set_option maxRecDepth 100000 in
/-- Counterexample to C5 as stated: the negative input `-2^-149` (sign bit set,
encoding 1) underflows in the division, so the voltage is `-0.0`, which is not
strictly below 0. -/
theorem negative_input_underflows :
    F32.lt (.fin true ⟨1, by decide⟩) (F32.ofFrac 0 1) = true ∧
    voltage (.fin true ⟨1, by decide⟩) = .fin true ⟨0, by decide⟩ ∧
    F32.lt (voltage (.fin true ⟨1, by decide⟩)) (F32.ofFrac 0 1) = false := by
  decide

/-- C5 (amended): no clamping.  For `v < 0` the voltage is `<= 0`, and strictly
below 0 exactly when `v < -400 * 2^-149`; for `v > 800` the voltage is strictly
above `3.3f` and, when finite, strictly above the rational `3.3`; for every
finite `v` the voltage is finite and equals `(v / 800) * 3.3` up to a relative
error of `2^-22` plus `3 * 2^-149`. -/
theorem out_of_range_not_clamped (v : F32) :
    (F32.lt v (F32.ofFrac 0 1) = true →
      F32.le (voltage v) (F32.ofFrac 0 1) = true ∧
      F32.lt (voltage v) (F32.ofFrac 0 1) = F32.lt v (.fin true ⟨400, by decide⟩)) ∧
    (F32.lt (F32.ofFrac 800 1) v = true →
      F32.lt (F32.ofFrac 33 10) (voltage v) = true ∧
      ∀ r : ℚ, (voltage v).toRat? = some r → 33 / 10 < r) ∧
    (∀ x : ℚ, v.toRat? = some x → ∃ r : ℚ, (voltage v).toRat? = some r ∧
      |r - spec_voltage x| ≤ |spec_voltage x| / 2 ^ 22 + 3 / 2 ^ 149) := by
  have u0 : units 0 = 0 := by decide
  have u400 : units 400 = 400 := by decide
  refine ⟨?_, ?_, ?_⟩
  · intro h
    rw [ofFrac_0] at h ⊢
    cases v with
    | nan => simp [F32.lt] at h
    | inf s =>
      rw [voltage_inf]
      cases s <;> simp [F32.lt, F32.le] at h ⊢
    | fin s a =>
      rw [voltage_fin]
      simp only [F32.lt, F32.le, decide_eq_true_eq] at h ⊢
      cases s with
      | false =>
        simp only [F32.sunits, if_false, Bool.false_eq_true, u0] at h
        omega
      | true =>
        simp only [F32.sunits, if_true, if_false, Bool.false_eq_true, u0, u400] at h ⊢
        constructor
        · omega
        · have e1 : (-(units (scale a.val) : ℤ) < 0) ↔ ¬ (scale a.val = 0) := by
            rw [← units_eq_zero_iff (b := scale a.val)]
            omega
          have e2 : (-(units a.val : ℤ) < -(400 : ℤ)) ↔ ¬ (a.val ≤ 400) := by
            rw [not_le, ← units_lt_iff (a := 400), u400]
            omega
          have e3 : (-(units (scale a.val) : ℤ) < 0) ↔ (-(units a.val : ℤ) < -(400 : ℤ)) := by
            rw [e1, e2, scale_eq_zero_iff]
          rw [decide_eq_decide]
          push_cast
          exact e3
  · intro h
    rw [ofFrac_800] at h
    rw [ofFrac_33_10]
    cases v with
    | nan => simp [F32.lt] at h
    | inf s =>
      rw [voltage_inf]
      cases s <;> simp [F32.lt, F32.toRat?] at h ⊢
    | fin s a =>
      rw [voltage_fin]
      simp only [F32.lt, decide_eq_true_eq, F32.toRat?, Option.some.injEq] at h ⊢
      cases s with
      | true =>
        simp only [F32.sunits, if_true, if_false, Bool.false_eq_true] at h
        have : 0 < units 0x44480000 := by rw [units_c800]; positivity
        omega
      | false =>
        simp only [F32.sunits, if_false, Bool.false_eq_true] at h ⊢
        have h1 : units 0x44480000 < units a.val := by exact_mod_cast h
        have h2 : 0x44480001 ≤ a.val := units_lt_iff.mp h1
        have h3 := scale_mono h2
        rw [scale_c800_succ] at h3
        have h4 : units 0x40533333 < units (scale a.val) := units_lt_units (by omega)
        have h5 : units 0x40533335 ≤ units (scale a.val) := units_le_units h3
        have h6 : units 0x40533335 = 13841205 * 2 ^ 127 := by norm_num [units]
        rw [h6] at h5
        refine ⟨by exact_mod_cast h4, ?_⟩
        intro r hr
        subst hr
        have h7 : (13841205 * 2 ^ 127 : ℚ) ≤ (units (scale a.val) : ℚ) := by
          exact_mod_cast h5
        push_cast
        rw [lt_div_iff₀ (by positivity)]
        generalize (units (scale a.val) : ℚ) = u at h7 ⊢
        norm_num at h7 ⊢
        linarith
  · intro x hx
    cases v with
    | nan => simp [F32.toRat?] at hx
    | inf s => simp [F32.toRat?] at hx
    | fin s a =>
      rw [voltage_fin]
      simp only [F32.toRat?, Option.some.injEq] at hx
      refine ⟨_, rfl, ?_⟩
      subst hx
      have he := scale_err_rel a.isLt
      have hsp : (0 : ℚ) ≤ spec_voltage ((units a.val : ℚ) / 2 ^ 149) := by
        unfold spec_voltage; positivity
      cases s with
      | false =>
        simp only [F32.sunits, if_false, Bool.false_eq_true]
        push_cast
        rw [abs_of_nonneg hsp]
        exact he
      | true =>
        simp only [F32.sunits, if_true]
        push_cast
        have e1 : spec_voltage (-(units a.val : ℚ) / 2 ^ 149)
            = -spec_voltage ((units a.val : ℚ) / 2 ^ 149) := by
          unfold spec_voltage; ring
        rw [e1, abs_neg, abs_of_nonneg hsp]
        have e2 : -(units (scale a.val) : ℚ) / 2 ^ 149 - -spec_voltage ((units a.val : ℚ) / 2 ^ 149)
            = -((units (scale a.val) : ℚ) / 2 ^ 149 - spec_voltage ((units a.val : ℚ) / 2 ^ 149)) := by
          ring
        rw [e2, abs_neg]
        exact he

set_option maxRecDepth 100000 in
/-- Witness for C5 (amended) at `v = -1.0f` and `v = 1000.0f`. -/
theorem out_of_range_not_clamped_witness :
    F32.lt (.fin true ⟨0x3F800000, by decide⟩) (F32.ofFrac 0 1) = true ∧
    F32.lt (voltage (.fin true ⟨0x3F800000, by decide⟩)) (F32.ofFrac 0 1) = true ∧
    F32.lt (F32.ofFrac 800 1) (F32.ofFrac 1000 1) = true ∧
    (F32.lt (F32.ofFrac 33 10) (voltage (F32.ofFrac 1000 1)) = true ∧
      ∀ r : ℚ, (voltage (F32.ofFrac 1000 1)).toRat? = some r → 33 / 10 < r) ∧
    (F32.ofFrac 1000 1).toRat? = some 1000 ∧
    ∃ r : ℚ, (voltage (F32.ofFrac 1000 1)).toRat? = some r ∧
      |r - spec_voltage 1000| ≤ |spec_voltage 1000| / 2 ^ 22 + 3 / 2 ^ 149 := by
  have hx : (F32.ofFrac 1000 1).toRat? = some 1000 := by
    have h1 : F32.ofFrac 1000 1 = .fin false ⟨0x447A0000, by decide⟩ := by decide
    have h2 : units 0x447A0000 = 1000 * 2 ^ 149 := by norm_num [units]
    rw [h1]
    simp only [F32.toRat?, F32.sunits, if_false, Bool.false_eq_true, h2]
    norm_num
  have hneg := ((out_of_range_not_clamped (.fin true ⟨0x3F800000, by decide⟩)).1 (by decide)).2
  exact ⟨by decide, by rw [hneg]; decide, by decide,
    (out_of_range_not_clamped (F32.ofFrac 1000 1)).2.1 (by decide), hx,
    (out_of_range_not_clamped (F32.ofFrac 1000 1)).2.2 1000 hx⟩

/-- C10: the transform maps `[0, 800]` into `[0, 3.3f]` and preserves order:
`v1 <= v2` implies `voltage v1 <= voltage v2`. -/
theorem voltage_range_and_order :
    (∀ v : F32, F32.le (F32.ofFrac 0 1) v = true → F32.le v (F32.ofFrac 800 1) = true →
      F32.le (F32.ofFrac 0 1) (voltage v) = true ∧
      F32.le (voltage v) (F32.ofFrac 33 10) = true) ∧
    (∀ v1 v2 : F32, F32.le v1 v2 = true → F32.le (voltage v1) (voltage v2) = true) := by
  have hmono : ∀ v1 v2 : F32, F32.le v1 v2 = true →
      F32.le (voltage v1) (voltage v2) = true := by
    intro v1 v2 h
    cases v1 with
    | nan => simp [F32.le] at h
    | inf s =>
      cases v2 with
      | nan => simp [F32.le] at h
      | inf t => rw [voltage_inf, voltage_inf]; exact h
      | fin t b => rw [voltage_inf, voltage_fin]; exact h
    | fin s a =>
      cases v2 with
      | nan => simp [F32.le] at h
      | inf t => rw [voltage_inf, voltage_fin]; exact h
      | fin t b =>
        rw [voltage_fin, voltage_fin]
        simp only [F32.le, decide_eq_true_eq] at h ⊢
        exact sunits_scale_mono h
  refine ⟨?_, hmono⟩
  intro v h0 h1
  have e0 : voltage (F32.ofFrac 0 1) = F32.ofFrac 0 1 := by
    rw [ofFrac_0, voltage_fin]
    simp [scale_zero]
  have e1 : voltage (F32.ofFrac 800 1) = F32.ofFrac 33 10 := by
    rw [ofFrac_800, ofFrac_33_10, voltage_fin]
    simp [scale_c800]
  have a0 := hmono _ _ h0
  have a1 := hmono _ _ h1
  rw [e0] at a0
  rw [e1] at a1
  exact ⟨a0, a1⟩

set_option maxRecDepth 100000 in
/-- Witness for C10 at `v = 123.0f` and the pair `-5.0f <= 900.0f`. -/
theorem voltage_range_and_order_witness :
    (F32.le (F32.ofFrac 0 1) (voltage (F32.ofFrac 123 1)) = true ∧
      F32.le (voltage (F32.ofFrac 123 1)) (F32.ofFrac 33 10) = true) ∧
    F32.le (voltage (.fin true ⟨0x40A00000, by decide⟩)) (voltage (F32.ofFrac 900 1)) = true :=
  ⟨voltage_range_and_order.1 (F32.ofFrac 123 1) (by decide) (by decide),
   voltage_range_and_order.2 (.fin true ⟨0x40A00000, by decide⟩) (F32.ofFrac 900 1) (by decide)⟩

/-! ## Host-level contract -/

set_option maxRecDepth 100000 in
/-- C4: for `v = 0`, the default `chip_init` declares for "CarbonDioxide", the
voltage is exactly `+0.0`; and after `chip_init`, any number `n` of timer ticks
with the slider never moved performs `n` pin writes, each of `+0.0` V. -/
theorem voltage_zero_default :
    voltage (F32.ofFrac 0 1) = .fin false ⟨0, by decide⟩ ∧
    (voltage (F32.ofFrac 0 1)).toRat? = some 0 ∧
    boot.attrs = [⟨"CarbonDioxide", F32.ofFrac 0 1⟩] ∧
    ∀ n : ℕ, ∃ h, boot.run (List.replicate n (.tick 0)) = some h ∧
      pin_writes h.trace = List.replicate n (0, .fin false ⟨0, by decide⟩) ∧
      h.pin_level 0 = if n = 0 then none else some (.fin false ⟨0, by decide⟩) := by
  have hv : voltage (F32.ofFrac 0 1) = .fin false ⟨0, by decide⟩ := by decide
  have ha : boot.attrs = [⟨"CarbonDioxide", F32.ofFrac 0 1⟩] := by decide
  have hp : boot.pins = [⟨"A0", .ANALOG, none⟩] := by decide
  have ht : pin_writes boot.trace = [] := by decide
  refine ⟨hv, ?_, ha, ?_⟩
  · rw [hv]
    have u0 : units 0 = 0 := by decide
    simp [F32.toRat?, F32.sunits, u0]
  · intro n
    obtain ⟨h, hr, hw, hl⟩ := run_ticks n wired_boot ha hp
    rw [hv, ht] at hw
    rw [hv] at hl
    exact ⟨h, hr, by simpa using hw, hl⟩

/-- C6: in every host state reachable from `chip_init`, setting the
"CarbonDioxide" attribute to `v` is possible, makes no ABI call and leaves every
pin as it was; the next timer tick then drives pin "A0" with `voltage v`. -/
theorem set_attr_waits_for_tick (es : List Event) (h : Host) (v : F32)
    (hr : boot.run es = some h) :
    (h.attrs[0]?).map Attr.name = some "CarbonDioxide" ∧
    (h.pins[0]?).map Pin.name = some "A0" ∧
    ∃ h1, h.step (.set_attr 0 v) = some h1 ∧ h1.pins = h.pins ∧ h1.trace = h.trace ∧
      h1.pin_level 0 = h.pin_level 0 ∧
      ∃ h2, h1.step (.tick 0) = some h2 ∧ h2.pin_level 0 = some (voltage v) := by
  have hw := run_wired wired_boot hr
  obtain ⟨w, l, ha, hp⟩ := wired_shape hw
  have hs : h.step (.set_attr 0 v) = some { h with attrs := [⟨"CarbonDioxide", v⟩] } := by
    simp [Host.step, ha]
  have hw1 := step_wired hw hs
  have ht := tick_wired (v := v) (l := l) hw1 rfl hp
  refine ⟨by simp [ha], by simp [hp], _, hs, rfl, rfl, ?_, _, ht, ?_⟩
  · simp [Host.pin_level]
  · simp [Host.pin_level]

/-- Witness for C6 right after `chip_init`, moving the slider to `400.0f`. -/
theorem set_attr_waits_for_tick_witness :
    boot.run [] = some boot ∧
    (boot.attrs[0]?).map Attr.name = some "CarbonDioxide" ∧
    (boot.pins[0]?).map Pin.name = some "A0" ∧
    ∃ h1, boot.step (.set_attr 0 (F32.ofFrac 400 1)) = some h1 ∧ h1.pins = boot.pins ∧
      h1.trace = boot.trace ∧ h1.pin_level 0 = boot.pin_level 0 ∧
      ∃ h2, h1.step (.tick 0) = some h2 ∧ h2.pin_level 0 = some (voltage (F32.ofFrac 400 1)) :=
  ⟨rfl, set_attr_waits_for_tick [] boot (F32.ofFrac 400 1) rfl⟩

/-- C7: an invocation of `chip_timer_event` that returns has made exactly two
ABI calls, one attribute read and one `pin_dac_write` to `chip->pin_out`, so the
pin writes of the trace grow by exactly one; and in every host state reachable
from `chip_init` the invocation with the registered user data returns, with
`chip->pin_out` the analog pin declared as "A0". -/
theorem timer_event_one_pin_write :
    (∀ (ud : ℕ) (h h1 : Host), chip_timer_event ud h = some h1 →
      ∃ chip sv, h.heap[ud]? = some chip ∧
        h1.trace = h.trace ++
          [.attr_read_float chip.co2_attr sv, .pin_dac_write chip.pin_out (voltage sv)] ∧
        pin_writes h1.trace = pin_writes h.trace ++ [(chip.pin_out, voltage sv)]) ∧
    (∀ (es : List Event) (h : Host), boot.run es = some h →
      ∃ chip h1, h.heap[0]? = some chip ∧
        (h.timers[0]?).map Timer.config = some ⟨.chip_timer_event, 0⟩ ∧
        (h.pins[chip.pin_out]?).map (fun p => (p.name, p.mode)) = some ("A0", pin_mode.ANALOG) ∧
        chip_timer_event 0 h = some h1) := by
  constructor
  · intro ud h h1 hc
    unfold chip_timer_event at hc
    cases hh : h.heap[ud]? with
    | none => simp [hh] at hc
    | some chip =>
      simp only [hh] at hc
      unfold attr_read_float at hc
      cases hat : h.attrs[chip.co2_attr]? with
      | none => simp [hat] at hc
      | some a =>
        simp only [hat] at hc
        unfold pin_dac_write at hc
        cases hpn : h.pins[chip.pin_out]? with
        | none => simp [hpn] at hc
        | some p =>
          simp only [hpn, Option.some.injEq] at hc
          subst hc
          refine ⟨chip, a.value, rfl, by simp, ?_⟩
          simp [pin_writes_append, pin_writes]
  · intro es h hr
    have hw := run_wired wired_boot hr
    obtain ⟨w, l, ha, hp⟩ := wired_shape hw
    exact ⟨⟨0, 0⟩, _, by simp [hw.1], by simp [hw.2.1], by simp [hp],
      timer_event_wired hw ha hp⟩

set_option maxRecDepth 100000 in
/-- Witness for C7 on the first tick after `chip_init`. -/
theorem timer_event_one_pin_write_witness :
    (∃ chip sv, boot.heap[0]? = some chip ∧
      (Option.get (chip_timer_event 0 boot) (by decide)).trace = boot.trace ++
        [.attr_read_float chip.co2_attr sv, .pin_dac_write chip.pin_out (voltage sv)] ∧
      pin_writes (Option.get (chip_timer_event 0 boot) (by decide)).trace
        = pin_writes boot.trace ++ [(chip.pin_out, voltage sv)]) ∧
    (∃ chip h1, boot.heap[0]? = some chip ∧
      (boot.timers[0]?).map Timer.config = some ⟨.chip_timer_event, 0⟩ ∧
      (boot.pins[chip.pin_out]?).map (fun p => (p.name, p.mode)) = some ("A0", pin_mode.ANALOG) ∧
      chip_timer_event 0 boot = some h1) :=
  ⟨timer_event_one_pin_write.1 0 boot _ (by simp),
   timer_event_one_pin_write.2 [] boot rfl⟩

/-- On any host state, `chip_init` makes exactly five ABI calls, among them one
`timer_init` with callback `chip_timer_event` and the freshly allocated state
block as user data, and one `timer_start` of that timer with the arguments 100
and `true`; the host ends with exactly one more timer and the block holds the
two new handles. -/
theorem chip_init_calls (h0 : Host) :
    (chip_init h0).trace = h0.trace ++
      [.malloc h0.heap.length,
       .pin_init "A0" .ANALOG h0.pins.length,
       .attr_init_float "CarbonDioxide" (F32.ofFrac 0 1) h0.attrs.length,
       .timer_init ⟨.chip_timer_event, h0.heap.length⟩ h0.timers.length,
       .timer_start h0.timers.length 100 true] ∧
    (chip_init h0).timers =
      h0.timers ++ [⟨⟨.chip_timer_event, h0.heap.length⟩, some (100, true)⟩] ∧
    (chip_init h0).heap = h0.heap ++ [⟨h0.pins.length, h0.attrs.length⟩] := by
  refine ⟨?_, ?_, ?_⟩
  · simp [chip_init, malloc, pin_init, store_pin_out, attr_init_float, store_co2_attr,
      timer_init, timer_start]
  · simp [chip_init, malloc, pin_init, store_pin_out, attr_init_float, store_co2_attr,
      timer_init, timer_start, modify_append_length]
  · simp [chip_init, malloc, pin_init, store_pin_out, attr_init_float, store_co2_attr,
      timer_init, timer_start, modify_append_length]

/-- C8: `chip_init` registers exactly one timer, with callback
`chip_timer_event` and the allocated state block as user data, and starts it as
recurring with the argument 100.  In the unit of the published host header
(microseconds) its period is 100 microseconds, which is not the 100 milliseconds
of the claim and of the comment on source line 27; the period is 100
milliseconds exactly when one unit of the argument lasts 1000 microseconds. -/
theorem chip_init_timer_period (h0 : Host) :
    (chip_init h0).timers =
      h0.timers ++ [⟨⟨.chip_timer_event, h0.heap.length⟩, some (100, true)⟩] ∧
    (chip_init h0).trace = h0.trace ++
      [.malloc h0.heap.length,
       .pin_init "A0" .ANALOG h0.pins.length,
       .attr_init_float "CarbonDioxide" (F32.ofFrac 0 1) h0.attrs.length,
       .timer_init ⟨.chip_timer_event, h0.heap.length⟩ h0.timers.length,
       .timer_start h0.timers.length 100 true] ∧
    ((chip_init h0).timers[h0.timers.length]?).bind (Timer.period_us 1) = some 100 ∧
    ((chip_init h0).timers[h0.timers.length]?).bind (Timer.period_us 1)
      ≠ some (ms_to_us 100) ∧
    ∀ unit_us : ℕ,
      ((chip_init h0).timers[h0.timers.length]?).bind (Timer.period_us unit_us)
        = some (ms_to_us 100) ↔ unit_us = 1000 := by
  obtain ⟨htr, htm, _⟩ := chip_init_calls h0
  refine ⟨htm, htr, ?_, ?_, ?_⟩
  · rw [htm]; simp [Timer.period_us]
  · rw [htm]; simp [Timer.period_us, ms_to_us]
  · intro unit_us
    rw [htm]
    simp only [List.getElem?_concat_length, Option.some_bind, Timer.period_us, ms_to_us,
      Option.some.injEq]
    omega

/-- C9: the voltage written by a tick depends only on the value read at that
tick: two invocations on any two hosts, with any state blocks, handles and
previous pin levels, in which the attribute read returns the same value, both
return and write the same voltage `voltage sv` to their pin. -/
theorem written_voltage_deterministic (h1 h2 : Host) (ud1 ud2 : ℕ) (c1 c2 : chip_state_t)
    (a1 a2 : Attr) (p1 p2 : Pin)
    (hc1 : h1.heap[ud1]? = some c1) (hc2 : h2.heap[ud2]? = some c2)
    (ha1 : h1.attrs[c1.co2_attr]? = some a1) (ha2 : h2.attrs[c2.co2_attr]? = some a2)
    (hp1 : h1.pins[c1.pin_out]? = some p1) (hp2 : h2.pins[c2.pin_out]? = some p2)
    (hv : a1.value = a2.value) :
    ∃ k1 k2 w, chip_timer_event ud1 h1 = some k1 ∧ chip_timer_event ud2 h2 = some k2 ∧
      w = voltage a1.value ∧
      k1.trace = h1.trace ++ [.attr_read_float c1.co2_attr a1.value, .pin_dac_write c1.pin_out w] ∧
      k2.trace = h2.trace ++ [.attr_read_float c2.co2_attr a1.value, .pin_dac_write c2.pin_out w] ∧
      k1.pin_level c1.pin_out = some w ∧ k2.pin_level c2.pin_out = some w := by
  have e1 : chip_timer_event ud1 h1 = some { h1 with
      pins := h1.pins.modify (fun p => { p with level := some (voltage a1.value) }) c1.pin_out,
      trace := h1.trace ++ [.attr_read_float c1.co2_attr a1.value,
        .pin_dac_write c1.pin_out (voltage a1.value)] } := by
    simp [chip_timer_event, hc1, attr_read_float, ha1, pin_dac_write, hp1]
  have e2 : chip_timer_event ud2 h2 = some { h2 with
      pins := h2.pins.modify (fun p => { p with level := some (voltage a1.value) }) c2.pin_out,
      trace := h2.trace ++ [.attr_read_float c2.co2_attr a1.value,
        .pin_dac_write c2.pin_out (voltage a1.value)] } := by
    simp [chip_timer_event, hc2, attr_read_float, ha2, pin_dac_write, hp2, hv]
  refine ⟨_, _, voltage a1.value, e1, e2, rfl, rfl, rfl, ?_, ?_⟩
  · simp [Host.pin_level, hp1]
  · simp [Host.pin_level, hp2]

set_option maxRecDepth 100000 in
/-- Witness for C9: the freshly initialised chip with the slider at `400.0f`,
and a host with other handles, another state block and a pin already driven,
whose attribute also reads `400.0f`. -/
theorem written_voltage_deterministic_witness :
    ∃ k1 k2 w,
      chip_timer_event 0 ⟨[⟨0, 0⟩], [⟨"A0", .ANALOG, none⟩],
        [⟨"CarbonDioxide", F32.ofFrac 400 1⟩], [], []⟩ = some k1 ∧
      chip_timer_event 1 ⟨[⟨0, 0⟩, ⟨1, 2⟩], [⟨"X", .other 7, none⟩, ⟨"A0", .ANALOG, some (.inf true)⟩],
        [⟨"Y", .nan⟩, ⟨"Z", .nan⟩, ⟨"CarbonDioxide", F32.ofFrac 400 1⟩], [], [.malloc 0]⟩ = some k2 ∧
      w = voltage (F32.ofFrac 400 1) ∧
      k1.trace = [] ++ [.attr_read_float 0 (F32.ofFrac 400 1), .pin_dac_write 0 w] ∧
      k2.trace = [.malloc 0] ++ [.attr_read_float 2 (F32.ofFrac 400 1), .pin_dac_write 1 w] ∧
      k1.pin_level 0 = some w ∧ k2.pin_level 1 = some w :=
  written_voltage_deterministic
    ⟨[⟨0, 0⟩], [⟨"A0", .ANALOG, none⟩], [⟨"CarbonDioxide", F32.ofFrac 400 1⟩], [], []⟩
    ⟨[⟨0, 0⟩, ⟨1, 2⟩], [⟨"X", .other 7, none⟩, ⟨"A0", .ANALOG, some (.inf true)⟩],
      [⟨"Y", .nan⟩, ⟨"Z", .nan⟩, ⟨"CarbonDioxide", F32.ofFrac 400 1⟩], [], [.malloc 0]⟩
    0 1 ⟨0, 0⟩ ⟨1, 2⟩ ⟨"CarbonDioxide", F32.ofFrac 400 1⟩ ⟨"CarbonDioxide", F32.ofFrac 400 1⟩
    ⟨"A0", .ANALOG, none⟩ ⟨"A0", .ANALOG, some (.inf true)⟩ rfl rfl rfl rfl rfl rfl rfl

end Co2Sensor
